import Mathlib

/-!
Verification of the trajectory simplification and combining pipeline of
`gpx_combine.py`.

Modelling conventions.

* A waypoint is modelled by its coordinate pair `(lat, lon)`, read from the
  XML attributes by `latlon`.  Coordinates are exact rationals `ℚ`; the
  Python code computes with IEEE doubles, but every claim settled over this
  model is either purely structural (which points survive which filter, in
  which order) or is settled over real-number semantics of the arithmetic.
* A segment is the ordered list of the `trkpt` waypoints below one `trk`
  element, which is exactly the sequence that `_iterate_over(segment,
  'trkpt', f)` presents to the functor `f`: the `findall` snapshot per
  parent makes the in-place removals performed by the functors invisible to
  the ongoing iteration, so each stage sees the full point list it started
  with, in document order.
* `main`'s own `for segment in tree.iter('trk')` loop is, by contrast, a
  live lazy iterator: appending a trk of the master file to its own root
  (`master_tree.getroot().append(segment)`) puts it back in front of the
  iterator, which then re-processes, re-counts and re-appends it.  The
  single-pass functions (`combineFile`, `runCombine`) abstract from this;
  the fuel-indexed functions (`masterLoop`, `runCombineLive`) model it,
  with `none` at every fuel meaning the program never terminates.
* Exceptions raised by the Python code (`ZeroDivisionError` in `keepevery`
  for `k = 0`, `AttributeError` on `master_tree.write` when `master_tree`
  is still `None`) are modelled with `Except`.
* The library functions used by `haversine` are passed as explicit
  functional parameters, instantiated with the exact real functions in the
  theorems about it.
-/

/-- A waypoint reduced to the data the filters inspect: `(lat, lon)`,
as produced by `latlon(waypt)` in the source. -/
abbrev Point : Type := ℚ × ℚ

/-- A track segment: the ordered list of its waypoints. -/
abbrev Segment : Type := List Point

/-- `cross(p_a, p_b, p_c)`: the cross product of the two difference vectors
`a_b = (b.lat - a.lat, b.lon - a.lon)` and `b_c = (c.lat - b.lat,
c.lon - b.lon)`, i.e. `a_b[0]*b_c[1] - a_b[1]*b_c[0]`. -/
def cross (p_a p_b p_c : Point) : ℚ :=
  (p_b.1 - p_a.1) * (p_c.2 - p_b.2) - (p_b.2 - p_a.2) * (p_c.1 - p_b.1)

/-- `dot(p_a, p_b, p_c)`: the dot product of the same two difference
vectors, i.e. `a_b[0]*b_c[0] + a_b[1]*b_c[1]`. -/
def dot (p_a p_b p_c : Point) : ℚ :=
  (p_b.1 - p_a.1) * (p_c.1 - p_b.1) + (p_b.2 - p_a.2) * (p_c.2 - p_b.2)

/-- The inner `while` loop of `linearize`: as long as the stack `path`
holds at least two points, with top `b` and `a` directly below it, and
`dot(a, b, c) > 0` and `abs(cross(a, b, c)) <= tol`, pop `b` off the stack
(the Python code simultaneously deletes the popped point from the segment).
The stack is represented top-first. -/
def popWhile (tol : ℚ) (c : Point) : List Point → List Point
  | b :: a :: rest =>
    if dot a b c > 0 ∧ |cross a b c| ≤ tol then popWhile tol c (a :: rest)
    else b :: a :: rest
  | l => l

/-- `linearize(segment, tol)`: scan the points left to right, maintaining
the stack of retained points; each incoming point first pops every
poppable top (`popWhile`) and is then pushed.  The points remaining in the
segment afterwards are exactly the final stack contents in original order
(bottom first), since every popped point was deleted from the segment and
nothing else was. -/
def linearize (seg : Segment) (tol : ℚ) : Segment :=
  (seg.foldl (fun path c => c :: popWhile tol c path) []).reverse

theorem popWhile_suffix (tol : ℚ) (c : Point) :
    ∀ path : List Point, (popWhile tol c path) <:+ path := by
  intro path
  induction path with
  | nil => simp [popWhile]
  | cons b rest ih =>
    match rest, ih with
    | [], _ => simp [popWhile]
    | a :: rest, ih =>
      by_cases h : dot a b c > 0 ∧ |cross a b c| ≤ tol
      · rw [popWhile, if_pos h]
        exact ih.trans (List.suffix_cons b (a :: rest))
      · rw [popWhile, if_neg h]

theorem linearize_stack (tol : ℚ) :
    ∀ (seg : Segment) (path : List Point),
      List.Sublist (seg.foldl (fun path c => c :: popWhile tol c path) path).reverse
        (path.reverse ++ seg) := by
  intro seg
  induction seg with
  | nil => intro path; simp
  | cons c cs ih =>
    intro path
    have h1 := ih (c :: popWhile tol c path)
    have h2 : List.Sublist ((c :: popWhile tol c path).reverse ++ cs)
        (path.reverse ++ c :: cs) := by
      rw [List.reverse_cons, List.append_assoc]
      have hpre : (popWhile tol c path).reverse <+: path.reverse :=
        List.reverse_prefix.mpr (popWhile_suffix tol c path)
      exact List.Sublist.append hpre.sublist (by simp)
    refine List.Sublist.trans ?_ h2
    simpa using h1

/-- Claim C1: the Linearizer never increases the point count; the surviving
points are an order-preserving subsequence (`List.Sublist`) of the input;
and the stack-popping step removes a retained point `b` only when `b` is
the top of the stack, `a` the point below it, `c` the incoming point, and
both `dot(a,b,c) > 0` and `|cross(a,b,c)| ≤ tol` hold at that moment
(otherwise the stack is returned unchanged). -/
theorem linearize_spec (tol : ℚ) (seg : Segment) :
    (linearize seg tol).Sublist seg ∧
    (linearize seg tol).length ≤ seg.length ∧
    ∀ (c b a : Point) (rest : List Point),
      popWhile tol c (b :: a :: rest) = b :: a :: rest ∨
        (dot a b c > 0 ∧ |cross a b c| ≤ tol) := by
  have hsub : (linearize seg tol).Sublist seg := by
    have := linearize_stack tol seg []
    simpa [linearize] using this
  refine ⟨hsub, hsub.length_le, ?_⟩
  intro c b a rest
  by_cases h : dot a b c > 0 ∧ |cross a b c| ≤ tol
  · exact Or.inr h
  · exact Or.inl (by rw [popWhile, if_neg h])

/-- The functor loop of `keepevery(segment, k)`, carrying the running
count.  Python evaluates `count % k` after incrementing `count`, so with
`k = 0` a `ZeroDivisionError` is raised at the first waypoint; the point
with (1-based) running count `n` survives iff `n % k == 0`, every other
point is removed from the segment. -/
def keepeveryGo {α : Type} (k : Nat) : Nat → List α → Except Unit (List α)
  | _, [] => Except.ok []
  | count, c :: rest =>
    if k = 0 then Except.error ()
    else if (count + 1) % k = 0 then (keepeveryGo k (count + 1) rest).map (c :: ·)
    else keepeveryGo k (count + 1) rest

/-- `keepevery(segment, k)`: keep only every k-th waypoint; the `Except`
models the `ZeroDivisionError` raised on `count % k` when `k = 0`. -/
def keepevery {α : Type} (seg : List α) (k : Nat) : Except Unit (List α) :=
  keepeveryGo k 0 seg

/-- The successful (`k ≠ 0`) behaviour of the `keepevery` loop as a pure
function, used by the combiner model. -/
def keepeveryPGo {α : Type} (k : Nat) : Nat → List α → List α
  | _, [] => []
  | count, c :: rest =>
    if (count + 1) % k = 0 then c :: keepeveryPGo k (count + 1) rest
    else keepeveryPGo k (count + 1) rest

/-- Pure form of `keepevery` for `k ≠ 0` (no division error possible). -/
def keepeveryP {α : Type} (seg : List α) (k : Nat) : List α :=
  keepeveryPGo k 0 seg

theorem keepeveryGo_ok {α : Type} (k : Nat) (hk : k ≠ 0) :
    ∀ (count : Nat) (seg : List α),
      keepeveryGo k count seg = Except.ok (keepeveryPGo k count seg) := by
  intro count seg
  induction seg generalizing count with
  | nil => rfl
  | cons c rest ih =>
    rw [keepeveryGo, keepeveryPGo, if_neg hk]
    by_cases h : (count + 1) % k = 0
    · rw [if_pos h, if_pos h, ih (count + 1)]; rfl
    · rw [if_neg h, if_neg h, ih (count + 1)]

theorem keepeveryPGo_eq_filter {α : Type} (k : Nat) :
    ∀ (count : Nat) (seg : List α),
      keepeveryPGo k count seg =
        ((List.enumFrom (count + 1) seg).filter (fun p => p.1 % k = 0)).map
          Prod.snd := by
  intro count seg
  induction seg generalizing count with
  | nil => rfl
  | cons c rest ih =>
    rw [keepeveryPGo, List.enumFrom_cons]
    by_cases h : (count + 1) % k = 0
    · rw [if_pos h]
      rw [List.filter_cons_of_pos (by simpa using h), List.map_cons, ih (count + 1)]
    · rw [if_neg h]
      rw [List.filter_cons_of_neg (by simpa using h), ih (count + 1)]

theorem keepeveryPGo_length {α : Type} (k : Nat) :
    ∀ (count : Nat) (seg : List α),
      (keepeveryPGo k count seg).length = (count + seg.length) / k - count / k := by
  intro count seg
  induction seg generalizing count with
  | nil => simp [keepeveryPGo]
  | cons c rest ih =>
    have hsucc : (count + 1) / k =
        count / k + if k ∣ count + 1 then 1 else 0 := Nat.succ_div count k
    have hmono : (count + 1) / k ≤ (count + 1 + rest.length) / k :=
      Nat.div_le_div_right (Nat.le_add_right _ _)
    have harr : count + (c :: rest).length = count + 1 + rest.length := by
      simp [List.length_cons]; omega
    rw [keepeveryPGo, harr]
    by_cases h : (count + 1) % k = 0
    · have hdvd : k ∣ count + 1 := Nat.dvd_iff_mod_eq_zero.mpr h
      rw [if_pos h, List.length_cons, ih (count + 1)]
      rw [if_pos hdvd] at hsucc
      omega
    · have hdvd : ¬ k ∣ count + 1 := fun hd =>
        h (Nat.dvd_iff_mod_eq_zero.mp hd)
      rw [if_neg h, ih (count + 1)]
      rw [if_neg hdvd] at hsucc
      omega

/-- Claim C2: for `k ≥ 1`, the Subsampler succeeds and retains exactly the
points whose 1-based running count is a multiple of `k`; that is
`⌊n/k⌋` many points for an `n`-point segment; and `k = 1` removes
nothing. -/
theorem keepevery_spec {α : Type} (k : Nat) (hk : 1 ≤ k) (seg : List α) :
    keepevery seg k =
      Except.ok (((List.enumFrom 1 seg).filter (fun p => p.1 % k = 0)).map Prod.snd) ∧
    (((List.enumFrom 1 seg).filter (fun p => p.1 % k = 0)).map Prod.snd).length =
      seg.length / k ∧
    (k = 1 → keepevery seg k = Except.ok seg) := by
  have hk0 : k ≠ 0 := by omega
  have hfil := keepeveryPGo_eq_filter k (α := α) 0 seg
  have hok : keepevery seg k = Except.ok (keepeveryPGo k 0 seg) :=
    keepeveryGo_ok k hk0 0 seg
  refine ⟨by rw [hok, hfil], ?_, ?_⟩
  · have hlen := keepeveryPGo_length k (α := α) 0 seg
    rw [hfil] at hlen
    simpa using hlen
  · intro h1
    subst h1
    rw [hok, hfil]
    rw [List.filter_eq_self.mpr fun a _ => by simp [Nat.mod_one]]
    simp [List.enumFrom_map_snd]

/-- Witness for C2: `keep-every = 3` on a ten-point segment retains the
points at running counts 3, 6, 9. -/
theorem keepevery_spec_witness :
    keepevery [10, 20, 30, 40, 50, 60, 70, 80, 90, 100] 3 =
      Except.ok (((List.enumFrom 1 [10, 20, 30, 40, 50, 60, 70, 80, 90, 100]).filter
        (fun p => p.1 % 3 = 0)).map Prod.snd) ∧
    (((List.enumFrom 1 [10, 20, 30, 40, 50, 60, 70, 80, 90, 100]).filter
        (fun p => p.1 % 3 = 0)).map Prod.snd).length =
      [10, 20, 30, 40, 50, 60, 70, 80, 90, 100].length / 3 ∧
    (3 = 1 → keepevery [10, 20, 30, 40, 50, 60, 70, 80, 90, 100] 3 =
      Except.ok [10, 20, 30, 40, 50, 60, 70, 80, 90, 100]) :=
  keepevery_spec 3 (by decide) [10, 20, 30, 40, 50, 60, 70, 80, 90, 100]

example :
    keepevery [10, 20, 30, 40, 50, 60, 70, 80, 90, 100] 3 =
      Except.ok [30, 60, 90] := rfl

/-- Counterexample to claim C9 as stated: on an empty segment the functor
is never invoked, so `keepevery(segment, 0)` returns normally instead of
raising a division error. -/
theorem keepevery_zero_empty : keepevery ([] : List Nat) 0 = Except.ok [] := rfl

/-- Claim C9 (amended): for every segment with at least one waypoint,
`keepevery` with `k = 0` raises a division error at the first waypoint. -/
theorem keepevery_zero_error {α : Type} (seg : List α) (h : seg ≠ []) :
    keepevery seg 0 = Except.error () := by
  cases seg with
  | nil => exact absurd rfl h
  | cons c rest => simp [keepevery, keepeveryGo]

/-- Witness for the amended C9 at a one-point segment. -/
theorem keepevery_zero_error_witness :
    keepevery [(0 : Nat)] 0 = Except.error () :=
  keepevery_zero_error [0] (by decide)

/-- `EARTH_RADIUS_MILES = 3958.756` from the source. -/
def EARTH_RADIUS_MILES : ℚ := 3958756 / 1000

/-- `EARTH_RADIUS_KILOMETERS = 6371` from the source. -/
def EARTH_RADIUS_KILOMETERS : ℚ := 6371

/-- `haversine(lon1, lat1, lon2, lat2, earth_radius)`: convert the four
coordinates to radians (`map(math.radians, ...)`), then
`hav = sin(dlat/2)**2 + cos(lat1)*cos(lat2)*sin(dlon/2)**2` and the result
is `2 * earth_radius * asin(sqrt(hav))`.  The library functions
`math.radians`, `math.sin`, `math.cos`, `math.asin` and `math.sqrt` are
taken as explicit functional parameters, so the definition can be read at
any interpretation of the transcendental arithmetic; the theorems about it
use the exact real functions. -/
def haversine {α : Type} [Field α] (radians sin cos asin sqrt : α → α)
    (lon1 lat1 lon2 lat2 earth_radius : α) : α :=
  2 * earth_radius * asin (sqrt
    (sin ((radians lat2 - radians lat1) / 2) ^ 2 +
     cos (radians lat1) * cos (radians lat2) *
       sin ((radians lon2 - radians lon1) / 2) ^ 2))

/-- The body of `_sum_functor` in `sum_segment_distance`: add the distance
from the previous waypoint (if any) and remember the current one. -/
def sumStep (hv : Point → Point → ℚ) (st : ℚ × Option Point) (child : Point) :
    ℚ × Option Point :=
  match st.2 with
  | some lastp => (st.1 + hv lastp child, some child)
  | none => (st.1, some child)

/-- `sum_segment_distance(segment)`: iterate over the waypoints carrying
`(total_distance, last)` initialised to `(0, (None, None))` and return the
accumulated total.  The pairwise distance function `hv` stands for
`haversine` applied to the two `(lat, lon)` pairs with the default earth
radius. -/
def sum_segment_distance (hv : Point → Point → ℚ) (seg : Segment) : ℚ :=
  (seg.foldl (sumStep hv) ((0 : ℚ), (none : Option Point))).1

theorem sum_segment_aux (hv : Point → Point → ℚ) :
    ∀ (seg : Segment) (acc : ℚ) (p : Point),
      (seg.foldl (sumStep hv) (acc, some p)).1 =
        acc + (((p :: seg).zip seg).map (fun q => hv q.1 q.2)).sum := by
  intro seg
  induction seg with
  | nil => intro acc p; simp
  | cons c rest ih =>
    intro acc p
    have hstep : sumStep hv (acc, some p) c = (acc + hv p c, some c) := rfl
    rw [List.foldl_cons, hstep, ih (acc + hv p c) c]
    simp [List.zip_cons_cons]
    ring

/-- Claim C6: the segment distance is the sum of the pairwise distances of
consecutive surviving waypoints, and a segment with fewer than two
waypoints has distance exactly 0. -/
theorem sum_segment_distance_spec (hv : Point → Point → ℚ) (seg : Segment) :
    sum_segment_distance hv seg =
      ((seg.zip seg.tail).map (fun q => hv q.1 q.2)).sum ∧
    (seg.length < 2 → sum_segment_distance hv seg = 0) := by
  have hmain : sum_segment_distance hv seg =
      ((seg.zip seg.tail).map (fun q => hv q.1 q.2)).sum := by
    cases seg with
    | nil => rfl
    | cons p rest =>
      have hstep : sumStep hv (0, none) p = (0, some p) := rfl
      rw [sum_segment_distance, List.foldl_cons, hstep, sum_segment_aux hv rest 0 p]
      simp
  refine ⟨hmain, fun hlen => ?_⟩
  rw [hmain]
  match seg, hlen with
  | [], _ => rfl
  | [p], _ => rfl

/-- Witness for C6 at a one-point segment: its distance is 0. -/
theorem sum_segment_distance_spec_witness :
    sum_segment_distance (fun _ _ => (1 : ℚ)) [((0 : ℚ), (0 : ℚ))] = 0 :=
  (sum_segment_distance_spec (fun _ _ => 1) [(0, 0)]).2 (by decide)

theorem haversine_symm_key :
    ∀ a b c d : ℝ,
      Real.sin ((b - a) / 2) ^ 2 +
          Real.cos a * Real.cos b * Real.sin ((d - c) / 2) ^ 2 =
        Real.sin ((a - b) / 2) ^ 2 +
          Real.cos b * Real.cos a * Real.sin ((c - d) / 2) ^ 2 := by
  intro a b c d
  have h1 : Real.sin ((b - a) / 2) ^ 2 = Real.sin ((a - b) / 2) ^ 2 := by
    rw [show (b - a) / 2 = -((a - b) / 2) by ring, Real.sin_neg]; ring
  have h2 : Real.sin ((d - c) / 2) ^ 2 = Real.sin ((c - d) / 2) ^ 2 := by
    rw [show (d - c) / 2 = -((c - d) / 2) by ring, Real.sin_neg]; ring
  rw [h1, h2]; ring

/-- Claim C7: with the exact real interpretations of `math.radians`,
`math.sin`, `math.cos`, `math.asin` and `math.sqrt`, the distance from any
point to itself is 0, and the distance is symmetric in its two points, for
every earth radius (so in particular for the default
`EARTH_RADIUS_MILES`). -/
theorem haversine_diag_and_symm :
    ∀ lon lat lon1 lat1 lon2 lat2 earth_radius : ℝ,
      haversine (fun x => x * (Real.pi / 180)) Real.sin Real.cos Real.arcsin
          Real.sqrt lon lat lon lat earth_radius = 0 ∧
      haversine (fun x => x * (Real.pi / 180)) Real.sin Real.cos Real.arcsin
          Real.sqrt lon1 lat1 lon2 lat2 earth_radius =
        haversine (fun x => x * (Real.pi / 180)) Real.sin Real.cos Real.arcsin
          Real.sqrt lon2 lat2 lon1 lat1 earth_radius := by
  intro lon lat lon1 lat1 lon2 lat2 earth_radius
  constructor
  · simp [haversine, Real.sqrt_zero, Real.arcsin_zero]
  · simp only [haversine]
    rw [haversine_symm_key (lat1 * (Real.pi / 180)) (lat2 * (Real.pi / 180))
      (lon1 * (Real.pi / 180)) (lon2 * (Real.pi / 180))]

/-- `filterlatlon(segment, latrange, lonrange)`: keep a point iff
`minlat <= lat <= maxlat and minlon <= lon <= maxlon` (inclusive). -/
def filterlatlon (seg : Segment) (latrange lonrange : ℚ × ℚ) : Segment :=
  seg.filter (fun p =>
    latrange.1 ≤ p.1 ∧ p.1 ≤ latrange.2 ∧ lonrange.1 ≤ p.2 ∧ p.2 ≤ lonrange.2)

/-- The command-line options of `main` that determine the per-segment
pipeline, in `argparse` declaration order.  The four strip flags control
stages that delete optional child tags or rewrite coordinate text; they
never change which waypoints a segment has, so they do not act on the
coordinate-value model (the text rewrite is modelled separately by
`striptrailingzeros`). -/
structure Args where
  keepevery : Nat
  linearize : Bool
  linearizetol : ℚ
  striptime : Bool
  stripelevation : Bool
  striptrailingzeros : Bool
  stripextensions : Bool
  latrange : ℚ × ℚ
  lonrange : ℚ × ℚ

/-- The per-segment part of `main`'s loop body: `keepevery`, then
`linearize` if enabled, then `filterlatlon`.  A `ZeroDivisionError` from
`keepevery` aborts the run. -/
def processSegment (args : Args) (seg : Segment) : Except Unit Segment :=
  match keepevery seg args.keepevery with
  | Except.error e => Except.error e
  | Except.ok kept =>
    Except.ok (filterlatlon
      (if args.linearize then linearize kept args.linearizetol else kept)
      args.latrange args.lonrange)

/-- Pure form of `processSegment` for `args.keepevery ≠ 0`. -/
def processSegmentP (args : Args) (seg : Segment) : Segment :=
  filterlatlon
    (if args.linearize then linearize (keepeveryP seg args.keepevery) args.linearizetol
     else keepeveryP seg args.keepevery)
    args.latrange args.lonrange

/-- A processed input file: the list of its `trk` segments after the
pipeline has run over each. -/
def processFileP (args : Args) (f : List Segment) : List Segment :=
  f.map (processSegmentP args)

/-- The per-segment tail of `main`'s loop: an empty segment is skipped;
for a non-empty segment its distance is added to the running total and the
segment is appended to the master tree, or, if no master tree exists yet,
the current file's tree becomes the master tree (`pf`, the full list of
processed segments of the current file, is what that tree holds).

This is a single-pass abstraction of the loop body: it visits every
segment of the file exactly once.  It is exact for a file processed after
the master tree already exists - appends then go into another file's tree,
so the file's own live `tree.iter` is unaffected - and for the file that
becomes the master when none of its later segments survives the pipeline.
When a later segment of the master file does survive,
`master_tree.getroot().append(segment)` puts the currently visited trk
back at the end of the very child list the live iterator is walking, and
the program re-visits it (re-processing, re-counting and re-appending it);
that general behaviour is modelled by `masterLoop` and `runCombineLive`
below, which coincide with this single pass exactly on runs without such a
self-append. -/
def appendSegment (d : Segment → ℚ) (pf : List Segment)
    (st : Option (List Segment) × ℚ) (seg : Segment) :
    Option (List Segment) × ℚ :=
  if seg = [] then st
  else
    match st.1 with
    | some m => (some (m ++ [seg]), st.2 + d seg)
    | none => (some pf, st.2 + d seg)

/-- One iteration of `main`'s file loop in the single-pass abstraction:
process every segment of the file, then run the skip/accumulate/append
step over the processed segments.  `d` stands for `sum_segment_distance`
with `haversine`.  See `appendSegment` for the exact scope of this
abstraction and `runCombineLive` for the live-iterator semantics. -/
def combineFile (args : Args) (d : Segment → ℚ)
    (st : Option (List Segment) × ℚ) (f : List Segment) :
    Except Unit (Option (List Segment) × ℚ) :=
  match f.mapM (processSegment args) with
  | Except.error e => Except.error e
  | Except.ok pf => Except.ok (pf.foldl (appendSegment d pf) st)

/-- Pure form of `combineFile` for `args.keepevery ≠ 0`. -/
def combineFileP (args : Args) (d : Segment → ℚ)
    (st : Option (List Segment) × ℚ) (f : List Segment) :
    Option (List Segment) × ℚ :=
  (processFileP args f).foldl (appendSegment d (processFileP args f)) st

/-- `main`'s loop over the (already sorted) input files, starting from
`master_tree = None` and `total_distance = 0`. -/
def runCombine (args : Args) (d : Segment → ℚ) (files : List (List Segment)) :
    Except Unit (Option (List Segment) × ℚ) :=
  files.foldlM (combineFile args d)
    ((none : Option (List Segment)), (0 : ℚ))

/-- Pure form of `runCombine` for `args.keepevery ≠ 0`. -/
def runCombineP (args : Args) (d : Segment → ℚ) (files : List (List Segment)) :
    Option (List Segment) × ℚ :=
  files.foldl (combineFileP args d)
    ((none : Option (List Segment)), (0 : ℚ))

/-- `sorted(args.gpxfile)`: the input file names in sorted order.  File
names are modelled as naturals with their linear order standing for the
lexicographic order on the name strings. -/
def sortedNames (names : List Nat) : List Nat :=
  names.mergeSort

/-- The file loop of `main`, including the initial sort: each name is
parsed into its file, a list of `trk` segments. -/
def mainCombine (args : Args) (d : Segment → ℚ) (names : List Nat)
    (content : Nat → List Segment) :
    Except Unit (Option (List Segment) × ℚ) :=
  runCombine args d ((sortedNames names).map content)

/-- The two ways `main` can raise: `ZeroDivisionError` inside `keepevery`,
and `AttributeError` when `master_tree.write(out)` is reached with
`master_tree` still `None`. -/
inductive PyError : Type
  | zeroDiv : PyError
  | noneWrite : PyError

/-- All of `main()` (named `mainRun`, since Lean reserves `main` for
program entry points): the combining loop followed by
`master_tree.write(out)`.  When no segment survived anywhere,
`master_tree` was never assigned and the write is an attribute access on
`None`. -/
def mainRun (args : Args) (d : Segment → ℚ) (names : List Nat)
    (content : Nat → List Segment) : Except PyError (List Segment × ℚ) :=
  match mainCombine args d names content with
  | Except.error _ => Except.error PyError.zeroDiv
  | Except.ok (none, _) => Except.error PyError.noneWrite
  | Except.ok (some m, t) => Except.ok (m, t)

/-- Concrete configuration used by witnesses and counterexamples:
`keepevery 1`, no linearization, latitude and longitude range `[0, 10]`,
default strip flags. -/
def args0 : Args := ⟨1, false, 0, false, true, true, true, (0, 10), (0, 10)⟩

/-- A concrete per-segment distance function assigning 1 to every
segment. -/
def dOne : Segment → ℚ := fun _ => 1

/-- A file with one out-of-range waypoint in its only segment. -/
def fileA : List Segment := [[((20 : ℚ), (20 : ℚ))]]

/-- A file with one in-range waypoint in its only segment. -/
def fileB : List Segment := [[((5 : ℚ), (5 : ℚ))]]

/-- A file with two segments: one filtered to empty by the range filter,
one surviving. -/
def fileC : List Segment := [[((20 : ℚ), (20 : ℚ))], [((5 : ℚ), (5 : ℚ))]]

/-- A file with two surviving one-point segments; its second segment makes
the live iterator re-visit the self-appended trk forever. -/
def fileD : List Segment := [[((5 : ℚ), (5 : ℚ))], [((6 : ℚ), (6 : ℚ))]]

/-- Scan a file (with the master tree still unset) for its first segment
that survives the pipeline: returns `none` when every segment processes to
empty, otherwise `(pre, pj, tail)` - the processed (all-empty) segments
before the first survivor, the processed survivor `pj` (the segment whose
non-emptiness makes this file's tree the master tree), and the *raw*
segments after it, which the live iterator has not visited yet. -/
def splitFirstNonempty (args : Args) : List Segment →
    Option (List Segment × Segment × List Segment)
  | [] => none
  | s :: rest =>
    if processSegmentP args s = [] then
      (splitFirstNonempty args rest).map
        (fun x => (processSegmentP args s :: x.1, x.2.1, x.2.2))
    else some ([], processSegmentP args s, rest)

/-- The live `tree.iter('trk')` walk over the tail of the master file,
after the master tree was set.  The trks after the survivor are numbered
by their position; `states` holds each trk's current contents (the same
element can occur several times in the child list, so contents are shared
through the id), `queue` is the sequence of child-list entries the live
iterator has still to visit, `appended` the ids appended so far (in
order).  Each visit runs the pipeline on the trk's current contents; a
non-empty result adds its distance and appends the trk to the child list,
which the live iterator will therefore visit again.  `fuel` bounds the
number of visits: `none` means the bound was hit, and a run on which every
`fuel` returns `none` never terminates. -/
def masterLoop (args : Args) (d : Segment → ℚ) :
    Nat → List Segment → List Nat → List Nat → ℚ →
    Option (List Segment × List Nat × ℚ)
  | _, states, [], appended, total => some (states, appended, total)
  | 0, _, _ :: _, _, _ => none
  | fuel + 1, states, i :: queue, appended, total =>
    if processSegmentP args (states.getD i []) = [] then
      masterLoop args d fuel
        (states.set i (processSegmentP args (states.getD i []))) queue
        appended total
    else
      masterLoop args d fuel
        (states.set i (processSegmentP args (states.getD i []))) (queue ++ [i])
        (appended ++ [i]) (total + d (processSegmentP args (states.getD i [])))

/-- `main`'s file loop with the live-iterator semantics.  A file processed
while the master tree exists is a single pass (`combineFileP`): its
appends go into the master file's tree, not the tree being iterated.  A
file processed with no master yet either processes to all-empty (state
unchanged) or sets the master at its first survivor and runs `masterLoop`
over its remaining trks; the master tree's final child list is the
processed prefix, the survivor, the tail trks in their final states, and
every appended child-list entry, displaying the final state of the trk it
aliases. -/
def runCombineLiveGo (args : Args) (d : Segment → ℚ) (fuel : Nat) :
    List (List Segment) → Option (List Segment) × ℚ →
    Option (Option (List Segment) × ℚ)
  | [], st => some st
  | f :: rest, st =>
    match st.1 with
    | some _ => runCombineLiveGo args d fuel rest (combineFileP args d st f)
    | none =>
      match splitFirstNonempty args f with
      | none => runCombineLiveGo args d fuel rest st
      | some (pre, pj, tail) =>
        match masterLoop args d fuel tail (List.range tail.length) []
            (st.2 + d pj) with
        | none => none
        | some (states2, appended, t2) =>
          runCombineLiveGo args d fuel rest
            (some (pre ++ pj :: states2 ++
              appended.map (fun i => states2.getD i [])), t2)

/-- The live-iterator semantics of `main`'s loop over the (already
sorted) input files: `none` when the self-append re-visiting exceeds
`fuel` visits. -/
def runCombineLive (args : Args) (d : Segment → ℚ) (fuel : Nat)
    (files : List (List Segment)) : Option (Option (List Segment) × ℚ) :=
  runCombineLiveGo args d fuel files ((none : Option (List Segment)), (0 : ℚ))

/-- The live-iterator semantics of `main`'s file loop including the
initial sort. -/
def mainCombineLive (args : Args) (d : Segment → ℚ) (fuel : Nat)
    (names : List Nat) (content : Nat → List Segment) :
    Option (Option (List Segment) × ℚ) :=
  runCombineLive args d fuel ((sortedNames names).map content)

/-- Enough fuel for every run without a self-append re-visit: no file's
tail is longer than the total number of segments. -/
def fuelFor (files : List (List Segment)) : Nat :=
  (files.map List.length).sum

theorem processSegment_ok (args : Args) (hk : args.keepevery ≠ 0)
    (seg : Segment) :
    processSegment args seg = Except.ok (processSegmentP args seg) := by
  rw [processSegment, show keepevery seg args.keepevery =
    Except.ok (keepeveryP seg args.keepevery) from
      keepeveryGo_ok args.keepevery hk 0 seg]
  rfl

theorem mapM_processSegment_ok (args : Args) (hk : args.keepevery ≠ 0) :
    ∀ f : List Segment,
      f.mapM (processSegment args) = Except.ok (processFileP args f) := by
  intro f
  induction f with
  | nil => rfl
  | cons seg rest ih =>
    rw [List.mapM_cons, processSegment_ok args hk, processFileP, List.map_cons]
    rw [processFileP] at ih
    show (Except.ok (processSegmentP args seg) >>= fun _ => _) = _
    rw [show ∀ (a : Segment) (g : Segment → Except Unit (List Segment)),
      Except.ok a >>= g = g a from fun a g => rfl]
    simp only [ih]
    rfl

theorem combineFile_ok (args : Args) (d : Segment → ℚ)
    (hk : args.keepevery ≠ 0) (st : Option (List Segment) × ℚ)
    (f : List Segment) :
    combineFile args d st f = Except.ok (combineFileP args d st f) := by
  rw [combineFile, mapM_processSegment_ok args hk f]
  rfl

theorem runCombine_ok_aux (args : Args) (d : Segment → ℚ)
    (hk : args.keepevery ≠ 0) :
    ∀ (files : List (List Segment)) (st : Option (List Segment) × ℚ),
      files.foldlM (combineFile args d) st =
        Except.ok (files.foldl (combineFileP args d) st) := by
  intro files
  induction files with
  | nil => intro st; rfl
  | cons f rest ih =>
    intro st
    rw [List.foldlM_cons, combineFile_ok args d hk]
    show (Except.ok (combineFileP args d st f) >>= fun _ => _) = _
    rw [show ∀ (a : Option (List Segment) × ℚ)
      (g : Option (List Segment) × ℚ → Except Unit (Option (List Segment) × ℚ)),
      Except.ok a >>= g = g a from fun a g => rfl]
    rw [ih, List.foldl_cons]

theorem runCombine_ok (args : Args) (d : Segment → ℚ)
    (hk : args.keepevery ≠ 0) (files : List (List Segment)) :
    runCombine args d files = Except.ok (runCombineP args d files) :=
  runCombine_ok_aux args d hk files _

theorem appendFold_snd (d : Segment → ℚ) (pf : List Segment) :
    ∀ (segs : List Segment) (st : Option (List Segment) × ℚ),
      (segs.foldl (appendSegment d pf) st).2 =
        st.2 + ((segs.filter (fun s => s ≠ [])).map d).sum := by
  intro segs
  induction segs with
  | nil => intro st; simp
  | cons seg rest ih =>
    intro st
    rw [List.foldl_cons, ih]
    by_cases h : seg = []
    · subst h
      simp [appendSegment]
    · have hstep : (appendSegment d pf st seg).2 = st.2 + d seg := by
        rw [appendSegment, if_neg h]
        cases hst : st.1 <;> simp
      rw [hstep, List.filter_cons_of_pos (by simpa using h), List.map_cons,
        List.sum_cons]
      ring

theorem appendFold_some (d : Segment → ℚ) (pf : List Segment) :
    ∀ (segs : List Segment) (m : List Segment) (t : ℚ),
      ∃ rest, (segs.foldl (appendSegment d pf) (some m, t)).1 = some (m ++ rest) ∧
        ∀ s ∈ rest, s ≠ [] := by
  intro segs
  induction segs with
  | nil => intro m t; exact ⟨[], by simp, by simp⟩
  | cons seg segs ih =>
    intro m t
    by_cases h : seg = []
    · subst h
      rw [List.foldl_cons,
        show appendSegment d pf (some m, t) [] = (some m, t) from by
          simp [appendSegment]]
      exact ih m t
    · rw [List.foldl_cons,
        show appendSegment d pf (some m, t) seg = (some (m ++ [seg]), t + d seg)
          from by rw [appendSegment, if_neg h]]
      obtain ⟨rest, h1, h2⟩ := ih (m ++ [seg]) (t + d seg)
      refine ⟨seg :: rest, ?_, ?_⟩
      · rw [h1]; simp
      · intro s hs
        rcases List.mem_cons.mp hs with h3 | h3
        · exact h3 ▸ h
        · exact h2 s h3

theorem appendFold_none (d : Segment → ℚ) (pf : List Segment) :
    ∀ (segs : List Segment) (t : ℚ), (∀ s ∈ segs, s = []) →
      segs.foldl (appendSegment d pf) (none, t) = (none, t) := by
  intro segs
  induction segs with
  | nil => intro t _; rfl
  | cons seg segs ih =>
    intro t hall
    have hseg : seg = [] := hall seg (List.mem_cons_self seg segs)
    subst hseg
    rw [List.foldl_cons,
      show appendSegment d pf (none, t) [] = ((none : Option (List Segment)), t)
        from by simp [appendSegment]]
    exact ih t fun s hs => hall s (List.mem_cons_of_mem [] hs)

theorem appendFold_base (d : Segment → ℚ) (pf : List Segment) :
    ∀ (segs : List Segment) (t : ℚ), (∃ s ∈ segs, s ≠ []) →
      ∃ rest, (segs.foldl (appendSegment d pf) (none, t)).1 = some (pf ++ rest) ∧
        ∀ s ∈ rest, s ≠ [] := by
  intro segs
  induction segs with
  | nil => intro t h; simp at h
  | cons seg segs ih =>
    intro t h
    by_cases hseg : seg = []
    · subst hseg
      rw [List.foldl_cons,
        show appendSegment d pf (none, t) [] = ((none : Option (List Segment)), t)
          from by simp [appendSegment]]
      apply ih t
      rcases h with ⟨s, hs, hne⟩
      rcases List.mem_cons.mp hs with h3 | h3
      · exact absurd h3 hne
      · exact ⟨s, h3, hne⟩
    · rw [List.foldl_cons,
        show appendSegment d pf (none, t) seg = (some pf, t + d seg)
          from by rw [appendSegment, if_neg hseg]]
      exact appendFold_some d pf segs pf (t + d seg)

theorem combineFold_snd (args : Args) (d : Segment → ℚ) :
    ∀ (files : List (List Segment)) (st : Option (List Segment) × ℚ),
      (files.foldl (combineFileP args d) st).2 =
        st.2 + (((files.map (processFileP args)).flatten.filter
          (fun s => s ≠ [])).map d).sum := by
  intro files
  induction files with
  | nil => intro st; simp
  | cons f files ih =>
    intro st
    rw [List.foldl_cons, ih]
    rw [show (combineFileP args d st f).2 =
        st.2 + (((processFileP args f).filter (fun s => s ≠ [])).map d).sum from
      appendFold_snd d (processFileP args f) (processFileP args f) st]
    rw [List.map_cons, List.flatten_cons, List.filter_append, List.map_append,
      List.sum_append]
    ring

theorem combineFold_none (args : Args) (d : Segment → ℚ) :
    ∀ (files : List (List Segment)) (t : ℚ),
      (∀ f ∈ files, ∀ s ∈ processFileP args f, s = []) →
      files.foldl (combineFileP args d) (none, t) = (none, t) := by
  intro files
  induction files with
  | nil => intro t _; rfl
  | cons f files ih =>
    intro t hall
    rw [List.foldl_cons,
      show combineFileP args d (none, t) f = ((none : Option (List Segment)), t)
        from appendFold_none d (processFileP args f) (processFileP args f) t
          (hall f (List.mem_cons_self f files))]
    exact ih t fun g hg => hall g (List.mem_cons_of_mem f hg)

theorem combineFold_some (args : Args) (d : Segment → ℚ) :
    ∀ (files : List (List Segment)) (m : List Segment) (t : ℚ),
      ∃ rest, (files.foldl (combineFileP args d) (some m, t)).1 = some (m ++ rest) ∧
        ∀ s ∈ rest, s ≠ [] := by
  intro files
  induction files with
  | nil => intro m t; exact ⟨[], by simp, by simp⟩
  | cons f files ih =>
    intro m t
    obtain ⟨r1, h1, h2⟩ :=
      appendFold_some d (processFileP args f) (processFileP args f) m t
    rw [List.foldl_cons,
      show combineFileP args d (some m, t) f =
        (some (m ++ r1), (combineFileP args d (some m, t) f).2) from by
          rw [← h1]
          rfl]
    obtain ⟨r2, h3, h4⟩ := ih (m ++ r1) ((combineFileP args d (some m, t) f).2)
    refine ⟨r1 ++ r2, ?_, ?_⟩
    · rw [h3, List.append_assoc]
    · intro s hs
      rcases List.mem_append.mp hs with h5 | h5
      · exact h2 s h5
      · exact h4 s h5

theorem combineFold_master (args : Args) (d : Segment → ℚ)
    (B : List Segment → Prop) :
    ∀ (files : List (List Segment)) (st : Option (List Segment) × ℚ),
      (∀ m, st.1 = some m →
        ∃ b, B b ∧ ∃ rest, m = b ++ rest ∧ ∀ s ∈ rest, s ≠ []) →
      (∀ f ∈ files, B (processFileP args f)) →
      ∀ m, (files.foldl (combineFileP args d) st).1 = some m →
        ∃ b, B b ∧ ∃ rest, m = b ++ rest ∧ ∀ s ∈ rest, s ≠ [] := by
  intro files
  induction files with
  | nil => intro st hst hfiles m hm; exact hst m hm
  | cons f files ih =>
    intro st hst hfiles m hm
    rw [List.foldl_cons] at hm
    refine ih (combineFileP args d st f) ?_
      (fun g hg => hfiles g (List.mem_cons_of_mem f hg)) m hm
    intro m0 hm0
    rcases st with ⟨fst0, t0⟩
    cases fst0 with
    | some mb =>
      obtain ⟨b, hB, r0, hr0, hr0ne⟩ := hst mb rfl
      obtain ⟨r1, h1, h2⟩ :=
        appendFold_some d (processFileP args f) (processFileP args f) mb t0
      have hm0e : m0 = mb ++ r1 := by
        have := h1.symm.trans hm0
        exact (Option.some.injEq _ _ ▸ this).symm
      refine ⟨b, hB, r0 ++ r1, ?_, ?_⟩
      · rw [hm0e, hr0, List.append_assoc]
      · intro s hs
        rcases List.mem_append.mp hs with h5 | h5
        · exact hr0ne s h5
        · exact h2 s h5
    | none =>
      by_cases hall : ∀ s ∈ processFileP args f, s = []
      · rw [show combineFileP args d (none, t0) f =
            ((none : Option (List Segment)), t0) from
          appendFold_none d (processFileP args f) (processFileP args f) t0 hall]
          at hm0
        exact absurd hm0 (by simp)
      · push_neg at hall
        obtain ⟨r1, h1, h2⟩ :=
          appendFold_base d (processFileP args f) (processFileP args f) t0 hall
        have hm0e : m0 = processFileP args f ++ r1 := by
          have := h1.symm.trans hm0
          exact (Option.some.injEq _ _ ▸ this).symm
        exact ⟨processFileP args f, hfiles f (List.mem_cons_self f files),
          r1, hm0e, h2⟩


theorem processSegmentP_nil (args : Args) : processSegmentP args [] = [] := by
  cases h : args.linearize <;>
    simp [processSegmentP, h, keepeveryP, keepeveryPGo, linearize, filterlatlon]

theorem appendFold_skip (d : Segment → ℚ) (pf : List Segment) :
    ∀ (segs : List Segment) (st : Option (List Segment) × ℚ),
      (∀ s ∈ segs, s = []) → segs.foldl (appendSegment d pf) st = st := by
  intro segs
  induction segs with
  | nil => intro st _; rfl
  | cons seg segs ih =>
    intro st hall
    have hseg : seg = [] := hall seg (List.mem_cons_self seg segs)
    subst hseg
    rw [List.foldl_cons, show appendSegment d pf st [] = st from by
      simp [appendSegment]]
    exact ih st fun s hs => hall s (List.mem_cons_of_mem [] hs)

theorem splitFirstNonempty_none (args : Args) :
    ∀ f : List Segment, splitFirstNonempty args f = none ↔
      ∀ s ∈ f, processSegmentP args s = [] := by
  intro f
  induction f with
  | nil => simp [splitFirstNonempty]
  | cons s rest ih =>
    by_cases h : processSegmentP args s = []
    · rw [splitFirstNonempty, if_pos h]
      constructor
      · intro hm
        have hrest : splitFirstNonempty args rest = none := by
          cases hh : splitFirstNonempty args rest with
          | none => rfl
          | some x => rw [hh] at hm; simp at hm
        intro x hx
        rcases List.mem_cons.mp hx with h1 | h1
        · exact h1 ▸ h
        · exact (ih.mp hrest) x h1
      · intro hall
        rw [ih.mpr fun x hx => hall x (List.mem_cons_of_mem s hx)]
        rfl
    · rw [splitFirstNonempty, if_neg h]
      constructor
      · intro hm; simp at hm
      · intro hall; exact absurd (hall s (List.mem_cons_self s rest)) h

theorem splitFirstNonempty_some (args : Args) :
    ∀ (f pre : List Segment) (pj : Segment) (tail : List Segment),
      splitFirstNonempty args f = some (pre, pj, tail) →
      ∃ f1 s f2, f = f1 ++ s :: f2 ∧ tail = f2 ∧
        pj = processSegmentP args s ∧ pj ≠ [] ∧
        pre = f1.map (processSegmentP args) ∧
        ∀ g ∈ f1, processSegmentP args g = [] := by
  intro f
  induction f with
  | nil => intro pre pj tail h; exact absurd h (by simp [splitFirstNonempty])
  | cons s rest ih =>
    intro pre pj tail h
    by_cases hs : processSegmentP args s = []
    · rw [splitFirstNonempty, if_pos hs] at h
      cases hh : splitFirstNonempty args rest with
      | none => rw [hh] at h; simp at h
      | some x =>
        obtain ⟨x1, x2, x3⟩ := x
        rw [hh] at h
        simp only [Option.map_some', Option.some.injEq, Prod.mk.injEq] at h
        obtain ⟨hpre, hpj, htail⟩ := h
        obtain ⟨f1, s0, f2, hf, ht, hpj2, hne, hpre2, hall⟩ := ih x1 x2 x3 hh
        refine ⟨s :: f1, s0, f2, by rw [hf]; rfl, by rw [← htail, ht],
          by rw [← hpj, hpj2], by rw [← hpj]; exact hne,
          by rw [← hpre, hpre2]; rfl, ?_⟩
        intro g hg
        rcases List.mem_cons.mp hg with h1 | h1
        · exact h1 ▸ hs
        · exact hall g h1
    · rw [splitFirstNonempty, if_neg hs] at h
      simp only [Option.some.injEq, Prod.mk.injEq] at h
      obtain ⟨hpre, hpj, htail⟩ := h
      exact ⟨[], s, rest, rfl, htail.symm, hpj.symm, hpj ▸ hs, hpre.symm,
        by simp⟩


theorem processSegmentP_nil_getD (l : List Segment) (i : Nat) :
    (l.set i ([] : Segment)).getD i [] = [] := by
  rcases Nat.lt_or_ge i l.length with h | h
  · rw [List.getD_eq_getElem?_getD, List.getElem?_set_self (by simpa using h)]
    rfl
  · rw [List.set_eq_of_length_le (by simpa using h),
      List.getD_eq_getElem?_getD, List.getElem?_eq_none (by simpa using h)]
    rfl

theorem getD_set_nil_ne (l : List Segment) (i j : Nat) (h : j ≠ i) :
    (l.set i ([] : Segment)).getD j [] = l.getD j [] := by
  rw [List.getD_eq_getElem?_getD, List.getElem?_set_ne (fun hh => h hh.symm),
    ← List.getD_eq_getElem?_getD]

theorem masterLoop_safe (args : Args) (d : Segment → ℚ) :
    ∀ (queue : List Nat) (fuel : Nat), queue.length ≤ fuel →
    ∀ (states : List Segment) (appended : List Nat) (total : ℚ),
      (∀ i ∈ queue, processSegmentP args (states.getD i []) = []) →
      masterLoop args d fuel states queue appended total =
        some (queue.foldl (fun st i => st.set i ([] : Segment)) states,
          appended, total) := by
  intro queue
  induction queue with
  | nil =>
    intro fuel _ states appended total _
    cases fuel <;> rfl
  | cons i queue ih =>
    intro fuel hfuel states appended total hall
    match fuel, hfuel with
    | fuel + 1, hfuel =>
      have hi : processSegmentP args (states.getD i []) = [] :=
        hall i (List.mem_cons_self i queue)
      rw [masterLoop, if_pos hi, hi, List.foldl_cons]
      refine ih fuel (by simp [List.length_cons] at hfuel; omega) _
        appended total ?_
      intro j hj
      by_cases hji : j = i
      · subst hji
        rw [processSegmentP_nil_getD]
        exact processSegmentP_nil args
      · rw [getD_set_nil_ne _ _ _ hji]
        exact hall j (List.mem_cons_of_mem i hj)

theorem foldSet_map_succ :
    ∀ (q : List Nat) (y : Segment) (st : List Segment),
      (q.map Nat.succ).foldl (fun s i => s.set i ([] : Segment)) (y :: st) =
        y :: q.foldl (fun s i => s.set i ([] : Segment)) st := by
  intro q
  induction q with
  | nil => intro y st; rfl
  | cons a q ih =>
    intro y st
    rw [List.map_cons, List.foldl_cons, List.foldl_cons,
      show (y :: st).set (Nat.succ a) ([] : Segment) = y :: st.set a [] from rfl]
    exact ih y (st.set a [])

theorem foldSet_range :
    ∀ l : List Segment,
      (List.range l.length).foldl (fun s i => s.set i ([] : Segment)) l =
        List.replicate l.length [] := by
  intro l
  induction l with
  | nil => rfl
  | cons y st ih =>
    rw [List.length_cons, List.range_succ_eq_map, List.foldl_cons,
      show (y :: st).set 0 ([] : Segment) = [] :: st from rfl,
      foldSet_map_succ (List.range st.length) [] st, ih, List.replicate_succ]

theorem map_processed_replicate (args : Args) :
    ∀ tail : List Segment, (∀ s ∈ tail, processSegmentP args s = []) →
      tail.map (processSegmentP args) = List.replicate tail.length [] := by
  intro tail
  induction tail with
  | nil => intro _; rfl
  | cons s tail ih =>
    intro htail
    rw [List.map_cons, htail s (List.mem_cons_self s tail), List.length_cons,
      List.replicate_succ, ih fun x hx => htail x (List.mem_cons_of_mem s hx)]


theorem masterLoop_diverge :
    ∀ (fuel : Nat) (appended : List Nat) (total : ℚ),
      masterLoop args0 dOne fuel [[((6 : ℚ), (6 : ℚ))]] [0] appended total =
        none := by
  intro fuel
  induction fuel with
  | zero => intro appended total; rfl
  | succ n ih =>
    intro appended total
    have hs : processSegmentP args0 ([[((6 : ℚ), (6 : ℚ))]].getD 0 []) =
        [((6 : ℚ), (6 : ℚ))] := by decide
    rw [masterLoop, if_neg (by rw [hs]; simp), hs,
      show [[((6 : ℚ), (6 : ℚ))]].set 0 [((6 : ℚ), (6 : ℚ))] =
        [[((6 : ℚ), (6 : ℚ))]] from rfl,
      show ([] : List Nat) ++ [0] = [0] from rfl]
    exact ih (appended ++ [0]) (total + dOne [((6 : ℚ), (6 : ℚ))])

theorem safe_tail (args : Args) (f1 : List Segment) (s0 : Segment)
    (f2 : List Segment) (hs0 : processSegmentP args s0 ≠ [])
    (hlen : ((f1 ++ s0 :: f2).filter
      (fun s => processSegmentP args s ≠ [])).length ≤ 1) :
    ∀ s ∈ f2, processSegmentP args s = [] := by
  intro s hs
  by_contra hne
  rw [List.filter_append, List.length_append,
    List.filter_cons_of_pos (by simp [hs0]), List.length_cons] at hlen
  have h2 : s ∈ f2.filter (fun s => processSegmentP args s ≠ []) :=
    List.mem_filter.mpr ⟨hs, by simp [hne]⟩
  have h3 : 0 < (f2.filter (fun s => processSegmentP args s ≠ [])).length :=
    List.length_pos.mpr (List.ne_nil_of_mem h2)
  omega

theorem combineFileP_allEmpty (args : Args) (d : Segment → ℚ)
    (f : List Segment) (hall : ∀ s ∈ f, processSegmentP args s = [])
    (st : Option (List Segment) × ℚ) :
    combineFileP args d st f = st := by
  show (processFileP args f).foldl (appendSegment d (processFileP args f)) st = st
  refine appendFold_skip d (processFileP args f) (processFileP args f) st ?_
  intro x hx
  obtain ⟨g, hg, hgx⟩ := List.mem_map.mp hx
  exact hgx ▸ hall g hg

theorem combineFileP_split (args : Args) (d : Segment → ℚ)
    (f pre : List Segment) (pj : Segment) (tail : List Segment)
    (hsplit : splitFirstNonempty args f = some (pre, pj, tail))
    (htail : ∀ s ∈ tail, processSegmentP args s = []) (t : ℚ) :
    combineFileP args d ((none : Option (List Segment)), t) f =
      (some (processFileP args f), t + d pj) ∧
    processFileP args f = pre ++ pj :: tail.map (processSegmentP args) := by
  obtain ⟨f1, s0, f2, rfl, rfl, hpj, hne, hpre, hall1⟩ :=
    splitFirstNonempty_some args f pre pj tail hsplit
  have hne2 : processSegmentP args s0 ≠ [] := hpj ▸ hne
  have hpf : processFileP args (f1 ++ s0 :: tail) =
      f1.map (processSegmentP args) ++ processSegmentP args s0 ::
        tail.map (processSegmentP args) := by
    simp [processFileP]
  have he1 : ∀ x ∈ f1.map (processSegmentP args), x = [] := by
    intro x hx
    obtain ⟨g, hg, hgx⟩ := List.mem_map.mp hx
    exact hgx ▸ hall1 g hg
  have he2 : ∀ x ∈ tail.map (processSegmentP args), x = [] := by
    intro x hx
    obtain ⟨g, hg, hgx⟩ := List.mem_map.mp hx
    exact hgx ▸ htail g hg
  refine ⟨?_, by rw [hpf, hpre, hpj]⟩
  rw [hpj]
  show (processFileP args (f1 ++ s0 :: tail)).foldl
      (appendSegment d (processFileP args (f1 ++ s0 :: tail)))
      ((none : Option (List Segment)), t) = _
  rw [hpf, List.foldl_append,
    appendFold_skip d _ (f1.map (processSegmentP args)) ((none :
      Option (List Segment)), t) he1, List.foldl_cons,
    show appendSegment d (f1.map (processSegmentP args) ++
        processSegmentP args s0 :: tail.map (processSegmentP args))
        ((none : Option (List Segment)), t) (processSegmentP args s0) =
      (some (f1.map (processSegmentP args) ++ processSegmentP args s0 ::
        tail.map (processSegmentP args)), t + d (processSegmentP args s0))
      from by rw [appendSegment, if_neg hne2],
    appendFold_skip d _ (tail.map (processSegmentP args)) _ he2]

theorem length_le_fuelFor (files : List (List Segment)) :
    ∀ f ∈ files, f.length ≤ fuelFor files := by
  intro f hf
  exact List.single_le_sum (fun x _ => Nat.zero_le x) _
    (List.mem_map_of_mem List.length hf)


theorem runCombineLiveGo_split (args : Args) (d : Segment → ℚ) (fuel : Nat)
    (f : List Segment) (rest : List (List Segment)) (t0 : ℚ)
    (pre : List Segment) (pj : Segment) (tail : List Segment)
    (hsplit : splitFirstNonempty args f = some (pre, pj, tail)) :
    runCombineLiveGo args d fuel (f :: rest)
        ((none : Option (List Segment)), t0) =
      match masterLoop args d fuel tail (List.range tail.length) []
          (t0 + d pj) with
      | none => none
      | some (states2, appended, t2) =>
        runCombineLiveGo args d fuel rest
          (some (pre ++ pj :: states2 ++
            appended.map (fun i => states2.getD i [])), t2) := by
  simp only [runCombineLiveGo]
  rw [hsplit]

theorem runCombineLiveGo_eq (args : Args) (d : Segment → ℚ) :
    ∀ (files : List (List Segment)) (fuel : Nat),
      (∀ f ∈ files, f.length ≤ fuel) →
      (∀ f ∈ files,
        (f.filter (fun s => processSegmentP args s ≠ [])).length ≤ 1) →
      ∀ st : Option (List Segment) × ℚ,
        runCombineLiveGo args d fuel files st =
          some (files.foldl (combineFileP args d) st) := by
  intro files
  induction files with
  | nil => intro fuel _ _ st; rfl
  | cons f rest ih =>
    intro fuel hfuel hsafe st
    have ihr := ih fuel (fun g hg => hfuel g (List.mem_cons_of_mem f hg))
      (fun g hg => hsafe g (List.mem_cons_of_mem f hg))
    rw [List.foldl_cons]
    rcases st with ⟨m0, t0⟩
    cases m0 with
    | some m =>
      show runCombineLiveGo args d fuel rest
        (combineFileP args d (some m, t0) f) = _
      exact ihr (combineFileP args d (some m, t0) f)
    | none =>
      cases hsplit : splitFirstNonempty args f with
      | none =>
        have hAll : ∀ s ∈ f, processSegmentP args s = [] :=
          (splitFirstNonempty_none args f).mp hsplit
        rw [combineFileP_allEmpty args d f hAll ((none :
          Option (List Segment)), t0)]
        simp only [runCombineLiveGo]
        rw [hsplit]
        exact ihr ((none : Option (List Segment)), t0)
      | some x =>
        obtain ⟨pre, pj, tail⟩ := x
        obtain ⟨f1, s0, f2, hf, ht, hpj, hne, hpre, hall1⟩ :=
          splitFirstNonempty_some args f pre pj tail hsplit
        have htail : ∀ s ∈ tail, processSegmentP args s = [] := by
          rw [ht]
          refine safe_tail args f1 s0 f2 (hpj ▸ hne) ?_
          rw [← hf]
          exact hsafe f (List.mem_cons_self f rest)
        obtain ⟨hcf, hpf⟩ := combineFileP_split args d f pre pj tail hsplit htail t0
        have hq : ∀ i ∈ List.range tail.length,
            processSegmentP args (tail.getD i []) = [] := by
          intro i hi
          have hlt : i < tail.length := List.mem_range.mp hi
          have hmem : tail.getD i [] ∈ tail := by
            rw [List.getD_eq_getElem?_getD, List.getElem?_eq_getElem hlt]
            exact List.getElem_mem hlt
          exact htail _ hmem
        have hfl : tail.length ≤ fuel := by
          have h1 : f.length ≤ fuel := hfuel f (List.mem_cons_self f rest)
          have h2 : tail.length ≤ f.length := by
            rw [hf, ht]
            simp [List.length_append]
            omega
          omega
        have hml := masterLoop_safe args d (List.range tail.length) fuel
          (by simpa using hfl) tail [] (t0 + d pj) hq
        rw [foldSet_range tail] at hml
        have hrep : tail.map (processSegmentP args) =
            List.replicate tail.length [] :=
          map_processed_replicate args tail htail
        rw [runCombineLiveGo_split args d fuel f rest t0 pre pj tail hsplit,
          hml, hcf, hpf, hrep]
        simp only [List.map_nil, List.append_nil]
        exact ihr _

theorem runCombineLive_eq (args : Args) (d : Segment → ℚ)
    (files : List (List Segment))
    (hsafe : ∀ f ∈ files,
      (f.filter (fun s => processSegmentP args s ≠ [])).length ≤ 1) :
    runCombineLive args d (fuelFor files) files =
      some (runCombineP args d files) :=
  runCombineLiveGo_eq args d files (fuelFor files) (length_le_fuelFor files)
    hsafe ((none : Option (List Segment)), (0 : ℚ))

/-- Counterexample to claim C3 as stated: one input file whose first
segment is emptied by the range filter and whose second survives.  The
surviving segment makes the file's own tree the master tree, so the
emptied first segment is still present in the combined output (while, as
claimed, contributing nothing to the total, which counts only the
surviving segment). -/
theorem runCombine_empty_segment_in_output :
    runCombine args0 dOne [fileC] = Except.ok (runCombineP args0 dOne [fileC]) ∧
    (runCombineP args0 dOne [fileC]).1 = some [[], [((5 : ℚ), (5 : ℚ))]] ∧
    ([] : Segment) ∈ [([] : Segment), [((5 : ℚ), (5 : ℚ))]] :=
  ⟨runCombine_ok args0 dOne (by decide) [fileC], rfl, by simp⟩

/-- Claim C3 (amended): for a valid subsample factor, on every run in
which no input file has more than one non-empty post-pipeline segment -
so the live tree iterator never re-visits a self-appended master trk -
the program terminates with the single-pass result: the reported total
distance is exactly the sum of the per-segment distances of the non-empty
post-pipeline segments (empty ones contribute nothing), and the combined
output is the full processed tree of one input file - the master file,
whose post-pipeline segments appear in the output even when empty -
followed only by non-empty appended segments.  When the master file has a
further non-empty post-pipeline segment, the live iterator re-visits the
self-appended trk; with `keepevery 1` and linearization off this
re-processing is the identity, so the run never terminates (final
conjunct: `none` at every fuel), reporting no total and writing no
output. -/
theorem runCombine_spec (args : Args) (d : Segment → ℚ)
    (files : List (List Segment)) (hk : args.keepevery ≠ 0)
    (hsafe : ∀ f ∈ files,
      (f.filter (fun s => processSegmentP args s ≠ [])).length ≤ 1) :
    runCombineLive args d (fuelFor files) files =
      some (runCombineP args d files) ∧
    runCombine args d files = Except.ok (runCombineP args d files) ∧
    (runCombineP args d files).2 =
      (((files.map (processFileP args)).flatten.filter
        (fun s => s ≠ [])).map d).sum ∧
    (∀ m, (runCombineP args d files).1 = some m →
      ∃ f ∈ files, ∃ rest, m = processFileP args f ++ rest ∧
        ∀ s ∈ rest, s ≠ []) ∧
    (∀ fuel, runCombineLive args0 dOne fuel [fileD] = none) := by
  refine ⟨runCombineLive_eq args d files hsafe,
    runCombine_ok args d hk files, ?_, ?_, ?_⟩
  · have := combineFold_snd args d files (none, 0)
    simpa [runCombineP] using this
  · intro m hm
    have hmaster := combineFold_master args d
      (fun b => ∃ f ∈ files, b = processFileP args f) files (none, 0)
      (fun m0 h0 => absurd h0 (by simp))
      (fun f hf => ⟨f, hf, rfl⟩) m (by simpa [runCombineP] using hm)
    obtain ⟨b, ⟨f, hf, hb⟩, rest, hrest, hne⟩ := hmaster
    exact ⟨f, hf, rest, hb ▸ hrest, hne⟩
  · intro fuel
    have hsplit : splitFirstNonempty args0 fileD =
        some ([], [((5 : ℚ), (5 : ℚ))], [[((6 : ℚ), (6 : ℚ))]]) := by decide
    rw [runCombineLive,
      runCombineLiveGo_split args0 dOne fuel fileD [] 0 []
        [((5 : ℚ), (5 : ℚ))] [[((6 : ℚ), (6 : ℚ))]] hsplit,
      show List.range ([[((6 : ℚ), (6 : ℚ))]] : List Segment).length = [0]
        from rfl,
      masterLoop_diverge fuel [] (0 + dOne [((5 : ℚ), (5 : ℚ))])]

/-- Witness for the amended C3 at a concrete run: one file with a single
surviving segment, on which the live iterator terminates with the
single-pass result. -/
theorem runCombine_spec_witness :
    runCombineLive args0 dOne (fuelFor [fileC]) [fileC] =
      some (runCombineP args0 dOne [fileC]) :=
  (runCombine_spec args0 dOne [fileC] (by decide) (by decide)).1

/-- Claim C10: when every segment of every input file is empty after the
pipeline, the master tree is never assigned, and the final
`master_tree.write(out)` is an attribute access on `None`
(`PyError.noneWrite`) instead of writing any output document. -/
theorem mainRun_all_empty (args : Args) (d : Segment → ℚ) (names : List Nat)
    (content : Nat → List Segment) (hk : args.keepevery ≠ 0)
    (hempty : ∀ n ∈ names, ∀ s ∈ content n, processSegmentP args s = []) :
    mainRun args d names content = Except.error PyError.noneWrite := by
  have hall : ∀ f ∈ (sortedNames names).map content,
      ∀ s ∈ processFileP args f, s = [] := by
    intro f hf s hs
    obtain ⟨n, hn, hfn⟩ := List.mem_map.mp hf
    obtain ⟨s0, hs0, hss0⟩ := List.mem_map.mp (hfn ▸ hs)
    have hnn : n ∈ names := ((List.mergeSort_perm names _).mem_iff).mp hn
    exact hss0 ▸ hempty n hnn s0 hs0
  have hnone : runCombineP args d ((sortedNames names).map content) =
      ((none : Option (List Segment)), (0 : ℚ)) :=
    combineFold_none args d ((sortedNames names).map content) 0 hall
  have hok : mainCombine args d names content =
      Except.ok (runCombineP args d ((sortedNames names).map content)) :=
    runCombine_ok args d hk ((sortedNames names).map content)
  rw [mainRun, hok, hnone]

/-- Witness for C10: one file whose single waypoint is out of range. -/
theorem mainRun_all_empty_witness :
    mainRun args0 dOne [0] (fun _ => fileA) = Except.error PyError.noneWrite :=
  mainRun_all_empty args0 dOne [0] (fun _ => fileA) (by decide) (by decide)

/-- Contents for a two-file run: file 0 is `fileA` (all points out of
range), file 1 is `fileB` (one surviving point). -/
def contentAB : Nat → List Segment := fun n => if n = 0 then fileA else fileB

/-- Counterexample to claim C8 as stated: with file 0 emptied entirely by
the range filter and file 1 surviving, the receiving structure is file 1's
tree, not the first input file's: the processed first file `[[]]` is not a
prefix of the combined output `[[(5, 5)]]`, so the first file's container
did not become the receiving structure. -/
theorem mainCombine_first_file_not_base :
    mainCombine args0 dOne [0, 1] contentAB =
      Except.ok (runCombineP args0 dOne [fileA, fileB]) ∧
    (runCombineP args0 dOne [fileA, fileB]).1 = some [[((5 : ℚ), (5 : ℚ))]] ∧
    processFileP args0 fileA = [[]] ∧
    List.isPrefixOf (processFileP args0 fileA) [[((5 : ℚ), (5 : ℚ))]] = false := by
  have hms : sortedNames [0, 1] = [0, 1] := List.mergeSort_eq_self (by decide)
  refine ⟨?_, rfl, rfl, rfl⟩
  rw [mainCombine, hms,
    show ([0, 1].map contentAB) = [fileA, fileB] from rfl]
  exact runCombine_ok args0 dOne (by decide) [fileA, fileB]

/-- Claim C8 (amended): the input files are processed in sorted-by-name
order, and for every fuel bound the outcome - termination with a result,
or divergence - is the same regardless of the enumeration order of the
input names; on a run with a valid subsample factor in which no input
file has more than one non-empty post-pipeline segment, the run
terminates with the single-pass result, and the receiving structure is
the container of the first processed file that yields a non-empty
post-pipeline segment (not necessarily the first input file): every
earlier file being entirely empty after the pipeline, the output is that
file's full processed tree followed only by non-empty appended
segments. -/
theorem mainCombine_spec (args : Args) (d : Segment → ℚ)
    (content : Nat → List Segment) (names1 names2 : List Nat)
    (hperm : names1.Perm names2) (hk : args.keepevery ≠ 0)
    (hsafe : ∀ n ∈ names1,
      ((content n).filter (fun s => processSegmentP args s ≠ [])).length ≤ 1) :
    List.Sorted (· ≤ ·) (sortedNames names1) ∧
    (∀ fuel, mainCombineLive args d fuel names1 content =
      mainCombineLive args d fuel names2 content) ∧
    mainCombine args d names1 content =
      Except.ok (runCombineP args d ((sortedNames names1).map content)) ∧
    mainCombineLive args d (fuelFor ((sortedNames names1).map content))
        names1 content =
      some (runCombineP args d ((sortedNames names1).map content)) ∧
    ∀ (fs1 : List (List Segment)) (f : List Segment) (fs2 : List (List Segment)),
      (sortedNames names1).map content = fs1 ++ f :: fs2 →
      (∀ g ∈ fs1, ∀ s ∈ processFileP args g, s = []) →
      (∃ s ∈ processFileP args f, s ≠ []) →
      ∃ rest, (runCombineP args d ((sortedNames names1).map content)).1 =
        some (processFileP args f ++ rest) ∧ ∀ s ∈ rest, s ≠ [] := by
  have hsorted1 : List.Sorted (· ≤ ·) (sortedNames names1) :=
    List.sorted_mergeSort' names1
  have heq : sortedNames names1 = sortedNames names2 :=
    List.eq_of_perm_of_sorted
      ((List.mergeSort_perm names1 _).trans
        (hperm.trans (List.mergeSort_perm names2 _).symm))
      hsorted1 (List.sorted_mergeSort' names2)
  have hsafe2 : ∀ f ∈ (sortedNames names1).map content,
      (f.filter (fun s => processSegmentP args s ≠ [])).length ≤ 1 := by
    intro f hf
    obtain ⟨n, hn, hfn⟩ := List.mem_map.mp hf
    exact hfn ▸ hsafe n (((List.mergeSort_perm names1 _).mem_iff).mp hn)
  refine ⟨hsorted1, ?_, runCombine_ok args d hk _,
    runCombineLive_eq args d _ hsafe2, ?_⟩
  · intro fuel
    rw [mainCombineLive, mainCombineLive, heq]
  · intro fs1 f fs2 hsplit hempty hne
    rw [hsplit, runCombineP, List.foldl_append, List.foldl_cons,
      combineFold_none args d fs1 0 hempty]
    obtain ⟨r1, h1, h2⟩ :=
      appendFold_base d (processFileP args f) (processFileP args f) 0 hne
    rw [show combineFileP args d (none, 0) f =
        (some (processFileP args f ++ r1), (combineFileP args d (none, 0) f).2)
      from by rw [← h1]; rfl]
    obtain ⟨r2, h3, h4⟩ := combineFold_some args d fs2 (processFileP args f ++ r1)
      ((combineFileP args d (none, 0) f).2)
    refine ⟨r1 ++ r2, ?_, ?_⟩
    · rw [h3, List.append_assoc]
    · intro s hs
      rcases List.mem_append.mp hs with h5 | h5
      · exact h2 s h5
      · exact h4 s h5

/-- Witness for the amended C8: at fuel 5, the two enumeration orders of
the same two files give the same live outcome. -/
theorem mainCombine_spec_witness :
    mainCombineLive args0 dOne 5 [1, 0] contentAB =
      mainCombineLive args0 dOne 5 [0, 1] contentAB :=
  (mainCombine_spec args0 dOne contentAB [1, 0] [0, 1] (by decide) (by decide)
    (by decide)).2.1 5

/-- Python's `s.rstrip('0')`: remove every trailing `'0'` character from
the string, modelled as a character list. -/
def rstripZeros (s : List Char) : List Char :=
  (s.reverse.dropWhile (fun ch => ch = '0')).reverse

/-- `striptrailingzeros(segment)`: rewrite each waypoint's `lat` and `lon`
attribute text (here the waypoint is its pair of attribute texts) with
`rstrip('0')`. -/
def striptrailingzeros (seg : List (List Char × List Char)) :
    List (List Char × List Char) :=
  seg.map (fun w => (rstripZeros w.1, rstripZeros w.2))

/-- The numeric value of a digit string, most significant digit first. -/
def digitsVal (l : List Char) : Nat :=
  l.foldl (fun a ch => 10 * a + (ch.toNat - Char.toNat '0')) 0

/-- The number denoted by an unsigned decimal numeral, in the forms
`float()` accepts on coordinate text: digits, optionally followed by a
point and further digits (either side of the point may be empty, not
both). -/
def parseUnsigned (s : List Char) : Option ℚ :=
  let ip := s.takeWhile Char.isDigit
  match s.drop ip.length with
  | [] => if ip = [] then none else some (digitsVal ip)
  | '.' :: frac =>
    if frac.all Char.isDigit ∧ (ip ≠ [] ∨ frac ≠ []) then
      some ((digitsVal ip : ℚ) + (digitsVal frac : ℚ) / 10 ^ frac.length)
    else none
  | _ => none

/-- The number denoted by a decimal numeral with an optional sign, as
`float()` reads a `lat`/`lon` attribute. -/
def parseDec (s : List Char) : Option ℚ :=
  match s with
  | '-' :: rest => (parseUnsigned rest).map (fun q => -q)
  | _ => parseUnsigned s

/-- Claim C4 states the intent (the spec forbids changing the represented
number), but `rstrip('0')` also deletes trailing zero digits of a
coordinate text that has no decimal separator: at a waypoint with lat text
`"30"` and lon text `"5.5"` the rewrite produces lat text `"3"`, changing
the represented latitude from 30 to 3. -/
theorem striptrailingzeros_changes_value :
    striptrailingzeros [(['3', '0'], ['5', '.', '5'])] =
      [(['3'], ['5', '.', '5'])] ∧
    parseDec ['3', '0'] = some 30 ∧
    parseDec ['3'] = some 3 ∧
    (30 : ℚ) ≠ 3 :=
  ⟨rfl, by decide, by decide, by decide⟩

example : rstripZeros ['2', '7', '.', '8', '1', '0', '0'] = ['2', '7', '.', '8', '1'] := rfl
